import Mathlib

/-!
Shallow embedding of the `stoml-args` command-line argument interpreter
(`src/lib.rs`, `src/parser.rs`, `src/error.rs`) and proofs about its
tokenizer, value coercion, and layered merge engine.

Strings are modelled as `List Char` (Rust `&str` operates on character
sequences for every operation the embedded code performs), hash maps and
TOML tables as association lists with lookup semantics.
-/

namespace StomlArgs

/-- Character-list model of Rust strings. -/
abbrev Str := List Char

/-- Shorthand turning a Lean string literal into the `Str` model. -/
def cs (s : String) : Str := s.toList

/-- Model of `stoml::Value`: the tagged union of resolved data.
Float payloads are carried as their source text, since no verified claim
inspects floating-point arithmetic (the parse keeps the raw token). -/
inductive Value where
  | str : Str → Value
  | int : Int → Value
  | float : Str → Value
  | bool : Bool → Value
  | arr : List Value → Value
  | table : List (Str × Value) → Value

/-- Model of `stoml::Table`: an ordered key-value mapping. -/
abbrev Table := List (Str × Value)

/-- Association-list model of `HashMap<String, Value>` (only lookup
semantics matter; iteration order is the insertion order). -/
abbrev Assoc := List (Str × Value)

/-- First-match lookup in an association list (`HashMap::get`). -/
def alookup (m : Assoc) (k : Str) : Option Value :=
  match m with
  | [] => none
  | (k', v) :: rest => if k' = k then some v else alookup rest k

/-- `HashMap::insert`: replace the binding in place if present, else append. -/
def ainsert (m : Assoc) (k : Str) (v : Value) : Assoc :=
  match m with
  | [] => [(k, v)]
  | (k', v') :: rest => if k' = k then (k, v) :: rest else (k', v') :: ainsert rest k v

/-- `HashMap::entry(k).or_insert_with(|| v)`: insert only when absent. -/
def insertIfAbsent (m : Assoc) (k : Str) (v : Value) : Assoc :=
  if (alookup m k).isSome then m else m ++ [(k, v)]

/-- `Value::as_integer` (`Integer` payload or `None`). -/
def Value.asInteger : Value → Option Int
  | .int n => some n
  | _ => none

/-- `Value::as_bool` (`Boolean` payload or `None`). -/
def Value.asBool : Value → Option Bool
  | .bool b => some b
  | _ => none

/-- `Value::as_table` (`Table` payload or `None`). -/
def Value.asTable : Value → Option Table
  | .table t => some t
  | _ => none

/-- Model of `ArgType` (`src/lib.rs`): the kind of value an argument accepts. -/
inductive ArgType where
  | string
  | integer
  | float
  | bool
  | array
  | count
deriving Repr, DecidableEq

/-- Model of `Arg` (`src/lib.rs`): one declared argument. -/
structure Arg where
  name : Str
  short : Option Char := none
  long : Option Str := none
  arg_type : ArgType := .string
  default : Option Value := none
  required : Bool := false
  help : Option Str := none
  toml_key : Option Str := none
  value_name : Option Str := none
  positional : Bool := false
  position : Option Nat := none
  variadic : Bool := false

/-- Model of the external `stoml::Error` (an abstract payload; the embedded
code only ever forwards it through `From<stoml::Error> for Error`). -/
inductive TomlError where
  | mk : Str → TomlError
deriving Repr, DecidableEq

/-- Model of `Error` (`src/error.rs`). The `Help`/`Version` payloads are the
rendered text, which belongs to the out-of-scope formatting collaborator, so
they are dropped here. -/
inductive Error where
  | missingRequired (name : Str)
  | unknownFlag (flag : Str)
  | missingValue (name : Str)
  | invalidValue (name : Str) (value : Str) (expected : Str)
  | duplicateValue (name : Str)
  | missingPositional (name : Str) (position : Nat)
  | tooManyPositional (max : Nat) (got : Nat)
  | missingConfig (path : Str)
  | help
  | version
  | toml (e : TomlError)
  | io

/-- Model of `Matches` (`src/lib.rs`): the result of parsing arguments. -/
structure Matches where
  values : Assoc
  program_name : Str
  remaining : List Str

/-- `Matches::new()`. -/
def Matches.new : Matches := ⟨[], [], []⟩

/-- `matches.values.insert(name, v)` on the wrapped map. -/
def Matches.insertVal (m : Matches) (k : Str) (v : Value) : Matches :=
  { m with values := ainsert m.values k v }

/-- The array-append path of `set_value`/`handle_positional`:
`entry(name).or_insert_with(Array::new)` followed by
`if let Value::Array(a) = arr { a.push(v) }` — a present non-array value is
left untouched. -/
def Matches.pushArr (m : Matches) (k : Str) (v : Value) : Matches :=
  match alookup m.values k with
  | none => { m with values := ainsert m.values k (.arr [v]) }
  | some (.arr a) => { m with values := ainsert m.values k (.arr (a ++ [v])) }
  | some _ => m

/-- `Matches::get_bool`: look up, coerce with `as_bool`, default `false`. -/
def Matches.get_bool (m : Matches) (name : Str) : Bool :=
  ((alookup m.values name).bind Value.asBool).getD false

/-- `char::to_digit(10)`. -/
def charDigit (c : Char) : Option Nat :=
  if '0' ≤ c ∧ c ≤ '9' then some (c.toNat - '0'.toNat) else none

/-- Largest `i64` value. -/
def i64Max : Int := 2 ^ 63 - 1

/-- Smallest `i64` value. -/
def i64Min : Int := -(2 ^ 63)

/-- The positive accumulation loop of Rust's `i64::from_str`: per digit,
`acc.checked_mul(10)` then `checked_add(d)`, failing on overflow (for a
non-negative accumulator the two checks amount to `acc * 10 + d ≤ i64::MAX`). -/
def checkedPos (acc : Int) : List Char → Option Int
  | [] => some acc
  | c :: rest =>
    match charDigit c with
    | none => none
    | some d =>
      if acc * 10 + d ≤ i64Max then checkedPos (acc * 10 + d) rest else none

/-- The negative accumulation loop of Rust's `i64::from_str`: per digit,
`acc.checked_mul(10)` then `checked_sub(d)`, failing on overflow. -/
def checkedNeg (acc : Int) : List Char → Option Int
  | [] => some acc
  | c :: rest =>
    match charDigit c with
    | none => none
    | some d =>
      if i64Min ≤ acc * 10 - d then checkedNeg (acc * 10 - d) rest else none

/-- Model of `value.parse::<i64>()` (Rust `i64::from_str`): an optional
single sign on the first character, then one or more base-10 digits,
accumulated with overflow checks at every step. -/
def i64FromStr (s : Str) : Option Int :=
  match s with
  | [] => none
  | c :: t =>
    if c = '+' then (if t = [] then none else checkedPos 0 t)
    else if c = '-' then (if t = [] then none else checkedNeg 0 t)
    else checkedPos 0 (c :: t)

/-- ASCII lowercase of a string (`str::to_lowercase`; full Unicode lowering
differs only on characters that cannot produce `"true"`, `"1"` or `"yes"`). -/
def lowerStr (s : Str) : Str := s.map Char.toLower

/-- The Boolean coercion used for `--flag=value` and typed coercion:
`lower == "true" || lower == "1" || lower == "yes"`. -/
def boolOfText (s : Str) : Bool :=
  let lower := lowerStr s
  lower = cs "true" ∨ lower = cs "1" ∨ lower = cs "yes"

/-- One or more ASCII digits. -/
def allDigits (s : Str) : Bool := !s.isEmpty && s.all fun c => (charDigit c).isSome

/-- The mantissa/exponent grammar of Rust's `f64::from_str` after the
optional sign: `inf`/`infinity`/`nan` (case-insensitive), or digits with an
optional fractional part (at least one digit overall) and an optional
`e`/`E` exponent with its own optional sign and mandatory digits. -/
def f64Body (s : Str) : Bool :=
  let low := lowerStr s
  if low = cs "inf" ∨ low = cs "infinity" ∨ low = cs "nan" then true
  else
    let (mant, ex) :=
      match low.splitOn 'e' with
      | [m] => (m, none)
      | [m, e] => (m, some e)
      | _ => ([], some [])
    let mantOk :=
      match mant.splitOn '.' with
      | [i] => allDigits i
      | [i, f] => (i ++ f ≠ []) && (i ++ f).all fun c => (charDigit c).isSome
      | _ => false
    let exOk :=
      match ex with
      | none => true
      | some ([]) => false
      | some ('+' :: d) => allDigits d
      | some ('-' :: d) => allDigits d
      | some d => allDigits d
    mantOk && exOk

/-- Model of `value.parse::<f64>()` success (the grammar of Rust's
`f64::from_str`; the parsed value itself is carried as the source text). -/
def f64Accepts (s : Str) : Bool :=
  match s with
  | '+' :: rest => f64Body rest
  | '-' :: rest => f64Body rest
  | rest => f64Body rest

/-- `str::strip_prefix`: the remainder when `p` is a prefix of `s`. -/
def dropPre (p s : Str) : Option Str :=
  match p, s with
  | [], s => some s
  | _ :: _, [] => none
  | a :: p', b :: s' => if a = b then dropPre p' s' else none

/-- Split a long-flag remainder on its first `=` (`rest.find('=')`):
returns the flag name and the optional inline value. -/
def splitEq (r : Str) : Str × Option Str :=
  match r with
  | [] => ([], none)
  | '=' :: t => ([], some t)
  | c :: t =>
    let (a, b) := splitEq t
    (c :: a, b)

/-- Lookup in the short-alias index. -/
def clookup (m : List (Char × Nat)) (c : Char) : Option Nat :=
  match m with
  | [] => none
  | (c', i) :: rest => if c' = c then some i else clookup rest c

/-- Insert into the short-alias index (`HashMap::insert`: last wins). -/
def cinsert (m : List (Char × Nat)) (c : Char) (i : Nat) : List (Char × Nat) :=
  match m with
  | [] => [(c, i)]
  | (c', i') :: rest => if c' = c then (c, i) :: rest else (c', i') :: cinsert rest c i

/-- Lookup in the long-alias index. -/
def slookup (m : List (Str × Nat)) (k : Str) : Option Nat :=
  match m with
  | [] => none
  | (k', i) :: rest => if k' = k then some i else slookup rest k

/-- Insert into the long-alias index (`HashMap::insert`: last wins). -/
def sinsert (m : List (Str × Nat)) (k : Str) (i : Nat) : List (Str × Nat) :=
  match m with
  | [] => [(k, i)]
  | (k', i') :: rest => if k' = k then (k, i) :: rest else (k', i') :: sinsert rest k i

/-- `Option<usize>` ordering used by `sort_by_key` (`None` before `Some`). -/
def posLt (a b : Option Nat) : Bool :=
  match a, b with
  | none, none => false
  | none, some _ => true
  | some _, none => false
  | some x, some y => x < y

/-- Stable insertion into a list sorted by positional slot key. -/
def insPos (key : Nat → Option Nat) (x : Nat) : List Nat → List Nat
  | [] => [x]
  | y :: ys => if posLt (key x) (key y) then x :: y :: ys else y :: insPos key x ys

/-- Stable sort by positional slot key (`positionals.sort_by_key`). -/
def sortPos (key : Nat → Option Nat) (l : List Nat) : List Nat :=
  l.foldr (insPos key) []

/-- Model of `ArgParser` (`src/parser.rs`): derived lookup indices plus the
argument definitions. -/
structure ArgParser where
  short_map : List (Char × Nat)
  long_map : List (Str × Nat)
  positionals : List Nat
  args : List Arg

/-- Placeholder definition used for (never-taken) out-of-range index reads. -/
def dummyArg : Arg := { name := [] }

/-- `self.args[idx]` (indices produced by the constructor are in range). -/
def ArgParser.argAt (P : ArgParser) (idx : Nat) : Arg :=
  P.args.getD idx dummyArg

/-- `ArgParser::new`: build the alias indices and the sorted positional list. -/
def ArgParser.new (args : List Arg) : ArgParser :=
  let idx := (List.range args.length)
  let positional := idx.filter fun i => (args.getD i dummyArg).positional
  let short_map := idx.foldl (fun m i =>
    let a := args.getD i dummyArg
    if a.positional then m
    else match a.short with
      | some c => cinsert m c i
      | none => m) []
  let long_map := idx.foldl (fun m i =>
    let a := args.getD i dummyArg
    if a.positional then m
    else match a.long with
      | some l => sinsert m l i
      | none => m) []
  { short_map
    long_map
    positionals := sortPos (fun i => (args.getD i dummyArg).position) positional
    args }

/-- Model of `ArgParser::parse_value_as_type` (`src/parser.rs`). -/
def parse_value_as_type (value : Str) (arg_type : ArgType) : Except Error Value :=
  match arg_type with
  | .string => .ok (.str value)
  | .integer =>
    match i64FromStr value with
    | some n => .ok (.int n)
    | none => .error (.invalidValue [] value (cs "an integer"))
  | .float =>
    if f64Accepts value then .ok (.float value)
    else .error (.invalidValue [] value (cs "a number"))
  | .bool => .ok (.bool (boolOfText value))
  | .count =>
    match i64FromStr value with
    | some n => .ok (.int n)
    | none => .error (.invalidValue [] value (cs "an integer"))
  | .array => .ok (.str value)

/-- Model of `ArgParser::set_value`: arrays accumulate, non-arrays reject a
present key (unless the type is `Count`), then insert the coerced value. -/
def set_value (P : ArgParser) (idx : Nat) (value : Str) (m : Matches) :
    Except Error Matches :=
  let a := P.argAt idx
  match a.arg_type with
  | .array =>
    match parse_value_as_type value .string with
    | .error e => .error e
    | .ok v => .ok (m.pushArr a.name v)
  | _ =>
    if (alookup m.values a.name).isSome ∧ a.arg_type ≠ .count then
      .error (.duplicateValue a.name)
    else
      match parse_value_as_type value a.arg_type with
      | .error e => .error e
      | .ok v => .ok (m.insertVal a.name v)

/-- Model of `ArgParser::handle_flag` for long flags. `next?` is the token
the iterator would yield next; the returned `Bool` records whether that
token was consumed as the flag's value. -/
def handle_flag (P : ArgParser) (idx : Nat) (inline : Option Str)
    (next? : Option Str) (m : Matches) : Except Error (Matches × Bool) :=
  let a := P.argAt idx
  match a.arg_type with
  | .bool =>
    match inline with
    | some v => .ok (m.insertVal a.name (.bool (boolOfText v)), false)
    | none => .ok (m.insertVal a.name (.bool true), false)
  | .count =>
    let current := ((alookup m.values a.name).bind Value.asInteger).getD 0
    .ok (m.insertVal a.name (.int (current + 1)), false)
  | _ =>
    match inline with
    | some v =>
      match set_value P idx v m with
      | .error e => .error e
      | .ok m' => .ok (m', false)
    | none =>
      match next? with
      | none => .error (.missingValue a.name)
      | some v =>
        match set_value P idx v m with
        | .error e => .error e
        | .ok m' => .ok (m', true)

/-- Model of `ArgParser::handle_positional`. -/
def handle_positional (P : ArgParser) (value : Str) (index : Nat)
    (m : Matches) : Except Error Matches :=
  match P.positionals.get? index with
  | some arg_idx =>
    let a := P.argAt arg_idx
    if a.variadic then
      match parse_value_as_type value .string with
      | .error e => .error e
      | .ok v => .ok (m.pushArr a.name v)
    else
      match parse_value_as_type value a.arg_type with
      | .error e => .error e
      | .ok v => .ok (m.insertVal a.name v)
  | none =>
    match P.positionals.getLast? with
    | some last_idx =>
      let la := P.argAt last_idx
      if la.variadic then
        match parse_value_as_type value .string with
        | .error e => .error e
        | .ok v => .ok (m.pushArr la.name v)
      else .error (.tooManyPositional P.positionals.length (index + 1))
    | none => .error (.tooManyPositional P.positionals.length (index + 1))

/-- The short-flag cluster scan of `ArgParser::parse` (the inner `while`
loop over the characters after `-`). `next?` is the token the outer
iterator would yield next; the `Bool` records whether it was consumed. -/
def shortLoop (P : ArgParser) (m : Matches) (next? : Option Str) :
    List Char → Except Error (Matches × Bool)
  | [] => .ok (m, false)
  | c :: rest =>
    match clookup P.short_map c with
    | none => .error (.unknownFlag ['-', c])
    | some idx =>
      let a := P.argAt idx
      match a.arg_type with
      | .bool => shortLoop P (m.insertVal a.name (.bool true)) next? rest
      | .count =>
        let current := ((alookup m.values a.name).bind Value.asInteger).getD 0
        shortLoop P (m.insertVal a.name (.int (current + 1))) next? rest
      | _ =>
        if rest ≠ [] then
          match set_value P idx rest m with
          | .error e => .error e
          | .ok m' => .ok (m', false)
        else
          match next? with
          | none => .error (.missingValue a.name)
          | some v =>
            match set_value P idx v m with
            | .error e => .error e
            | .ok m' => .ok (m', true)

/-- The `--no-` negation probe of the long-flag branch: the index of the
matching Boolean-typed argument, when the remainder after `--` begins with
`no-` and the suffix is a known Boolean long alias. -/
def negationIdx (P : ArgParser) (r : Str) : Option Nat :=
  match dropPre (cs "no-") r with
  | some flag_name =>
    match slookup P.long_map flag_name with
    | some idx => if (P.argAt idx).arg_type = .bool then some idx else none
    | none => none
  | none => none

/-- One Normal-state step of `ArgParser::parse`: classify a single token
(long flag, short cluster, bare `-`, positional) and dispatch it. `next?`
is the token the iterator would yield next; the result carries the updated
matches, the updated positional index, and whether `next?` was consumed. -/
def normalStep (P : ArgParser) (m : Matches) (posIdx : Nat) (tok : Str)
    (next? : Option Str) : Except Error (Matches × Nat × Bool) :=
  match dropPre ['-', '-'] tok with
  | some r =>
    match negationIdx P r with
    | some idx =>
      .ok (m.insertVal (P.argAt idx).name (.bool false), posIdx, false)
    | none =>
      let (flag_name, inline) := splitEq r
      match slookup P.long_map flag_name with
      | some idx =>
        match handle_flag P idx inline next? m with
        | .error e => .error e
        | .ok (m', took) => .ok (m', posIdx, took)
      | none => .error (.unknownFlag (['-', '-'] ++ flag_name))
  | none =>
    match tok with
    | '-' :: restChars =>
      if restChars = [] then
        match handle_positional P ['-'] posIdx m with
        | .error e => .error e
        | .ok m' => .ok (m', posIdx + 1, false)
      else
        match shortLoop P m next? restChars with
        | .error e => .error e
        | .ok (m', took) => .ok (m', posIdx, took)
    | _ =>
      match handle_positional P tok posIdx m with
      | .error e => .error e
      | .ok m' => .ok (m', posIdx + 1, false)

/-- The main token loop of `ArgParser::parse`: the two-state machine over
the raw token list (`seenDD` is the `seen_double_dash` flag). When a step
consumed the following token as a flag value, the loop resumes after it
(`took = true` is only reachable when a following token exists, so the
empty-list fallback in that branch is dead code). -/
def parseLoop (P : ArgParser) :
    Matches → Nat → Bool → List Str → Except Error Matches
  | m, _, _, [] => .ok m
  | m, posIdx, seenDD, tok :: rest =>
    if seenDD then
      parseLoop P { m with remaining := m.remaining ++ [tok] } posIdx true rest
    else if tok = ['-', '-'] then
      parseLoop P m posIdx true rest
    else
      match normalStep P m posIdx tok rest.head? with
      | .error e => .error e
      | .ok (m', posIdx', true) =>
        match rest with
        | [] => .ok m'
        | _ :: rest' => parseLoop P m' posIdx' seenDD rest'
      | .ok (m', posIdx', false) => parseLoop P m' posIdx' seenDD rest

/-- Model of `ArgParser::parse`. -/
def ArgParser.parse (P : ArgParser) (args : List Str) : Except Error Matches :=
  parseLoop P Matches.new 0 false args

/-- The dotted key built by `merge_toml`:
`if prefix.is_empty() { key } else { format!("{}.{}", prefix, key) }`. -/
def fullKey (pfx k : Str) : Str :=
  if pfx.isEmpty then k else pfx ++ ['.'] ++ k

mutual
/-- The `if let Some(inner) = value.as_table()` step of `Matches::merge_toml`:
recurse into a nested table under its dotted path, leave the mapping
unchanged for every other value. -/
def mergeVal (m : Assoc) (full : Str) : Value → Assoc
  | .table inner => merge_toml m full inner
  | _ => m

/-- Model of `Matches::merge_toml` (`src/lib.rs`): depth-first flattening of
a config tree into the mapping; nested tables recurse under their dotted
path, and every value (the parent table included) is inserted under its
full key only if absent. -/
def merge_toml (m : Assoc) (pfx : Str) : Table → Assoc
  | [] => m
  | (k, v) :: rest =>
    merge_toml (insertIfAbsent (mergeVal m (fullKey pfx k) v) (fullKey pfx k) v) pfx rest
end

/-- Model of `Matches::with_defaults`: for every spec whose stable name is
absent from the mapping and that declares a default, insert the default
(the `!contains_key && let Some(default)` guard of the source loop). -/
def with_defaults (m : Assoc) : List Arg → Assoc
  | [] => m
  | a :: rest =>
    match a.default, alookup m a.name with
    | some d, none => with_defaults (ainsert m a.name d) rest
    | _, _ => with_defaults m rest

/-- `key.split('.')` (never returns the empty list). -/
def splitDots : Str → List Str
  | [] => [[]]
  | '.' :: t => [] :: splitDots t
  | c :: t =>
    match splitDots t with
    | h :: r => (c :: h) :: r
    | [] => [[c]]

/-- The nested-table navigation of `Matches::to_table` for a dotted key:
create/reuse tables on the way down, and silently stop descending when a
non-table value occupies an intermediate path. -/
def insertNested (t : Table) (v : Value) : List Str → Table
  | [] => t
  | [last] => ainsert t last v
  | p :: ps =>
    let t1 := if (alookup t p).isSome then t else ainsert t p (.table [])
    match alookup t1 p with
    | some (.table sub) => ainsert t1 p (.table (insertNested sub v ps))
    | _ => t1

/-- One entry of the `Matches::to_table` loop: a one-part key is inserted
directly, a dotted key goes through the nested-table navigation. -/
def toTableStep (t : Table) (kv : Str × Value) : Table :=
  let parts := splitDots kv.1
  if parts.length = 1 then ainsert t kv.1 kv.2
  else insertNested t kv.2 parts

/-- Model of `Matches::to_table`: unflatten the resolved mapping into a
nested table, splitting dotted keys. -/
def to_table (m : Assoc) : Table :=
  m.foldl toTableStep []

/-- Model of the `Args` builder state (`src/lib.rs`). -/
structure Args where
  name : Str
  version : Option Str := none
  about : Option Str := none
  args : List Arg := []
  positional_count : Nat := 0
  auto_help : Bool := true
  auto_version : Bool := true
  auto_config : Bool := false
  default_config : Option Str := none

/-- Split a string at the first occurrence of `c`: the part before and the
part after (`chars.iter().position(..)` plus `chars[pos + 1..]`). -/
def splitAtChar (c : Char) : Str → Option (Str × Str)
  | [] => none
  | x :: t =>
    if x = c then some ([], t)
    else (splitAtChar c t).map fun p => (x :: p.1, p.2)

/-- One step of the scan in `Args::extract_config_path`; `some r` means the
loop returns `r` (which may itself be `none` when the flag is last), `none`
means the scan continues with the next token. -/
def configStep (a : Str) (rest : List Str) : Option (Option Str) :=
  match dropPre (cs "--config") a with
  | some r =>
    match r with
    | '=' :: path => some (some path)
    | [] => some rest.head?
    | _ => configTail a rest
  | none => configTail a rest
where
  /-- The `-c` and combined-cluster checks that follow the `--config` check. -/
  configTail (a : Str) (rest : List Str) : Option (Option Str) :=
    match dropPre (cs "-c") a with
    | some [] => some rest.head?
    | some r => some (some r)
    | none =>
      match a with
      | '-' :: tail =>
        if tail.head? = some '-' then none
        else
          match splitAtChar 'c' tail with
          | some (_, after) =>
            if after = [] then some rest.head?
            else some (some after)
          | none => none
      | _ => none

/-- Model of `Args::extract_config_path`: pre-scan the raw tokens for a
config path, falling back to the default config path. -/
def extract_config_path (dc : Option Str) : List Str → Option Str
  | [] => dc
  | a :: rest =>
    match configStep a rest with
    | some r => r
    | none => extract_config_path dc rest

/-- Model of `Args::load_config_file`, parameterized by the out-of-scope
file system (`exists_`) and external TOML file parser (`parse_file`); a
parser failure comes back through `From<stoml::Error>` as `Error::Toml`. -/
def load_config_file (A : Args) (exists_ : Str → Bool)
    (parse_file : Str → Except TomlError Table) :
    Option Str → Except Error (Option Table)
  | some p =>
    if A.default_config = some p ∧ exists_ p = false then .ok none
    else
      match parse_file p with
      | .ok t => .ok (some t)
      | .error e => .error (.toml e)
  | none => .ok none

/-- The `-c`/`--config` definition pushed by `parse_from` under `auto_config`. -/
def configArgDef : Arg :=
  { name := cs "config", short := some 'c', long := some (cs "config"),
    help := some (cs "Path to configuration file"), value_name := some (cs "FILE") }

/-- The `-h`/`--help` definition pushed by `parse_from` under `auto_help`
(`.flag()` sets type `Bool` and default `false`). -/
def helpArgDef : Arg :=
  { name := cs "help", short := some 'h', long := some (cs "help"),
    arg_type := .bool, default := some (.bool false),
    help := some (cs "Print help information") }

/-- The `-V`/`--version` definition pushed by `parse_from` when a version
is set. -/
def versionArgDef : Arg :=
  { name := cs "version", short := some 'V', long := some (cs "version"),
    arg_type := .bool, default := some (.bool false),
    help := some (cs "Print version information") }

/-- Model of `Args::parse_from` (`src/lib.rs`): config pre-scan and load,
auto-flag registration, tokenization, help/version interception, config
merge, and required-argument validation. The file system and the external
TOML parser are passed in as parameters. -/
def parse_from (A : Args) (exists_ : Str → Bool)
    (parse_file : Str → Except TomlError Table) (argv : List Str) :
    Except Error Matches :=
  let configRes : Except Error (Option Table) :=
    if A.auto_config then
      load_config_file A exists_ parse_file (extract_config_path A.default_config argv)
    else .ok none
  match configRes with
  | .error e => .error e
  | .ok config_table =>
    let allArgs := A.args
      ++ (if A.auto_config then [configArgDef] else [])
      ++ (if A.auto_help then [helpArgDef] else [])
      ++ (if A.auto_version ∧ A.version.isSome then [versionArgDef] else [])
    let P := ArgParser.new allArgs
    match P.parse argv with
    | .error e => .error e
    | .ok matches0 =>
      if A.auto_help ∧ matches0.get_bool (cs "help") then .error .help
      else if A.auto_version ∧ matches0.get_bool (cs "version") then .error .version
      else
        let matches1 := match config_table with
          | some t => { matches0 with values := merge_toml matches0.values [] t }
          | none => matches0
        match allArgs.find? (fun a => a.required && (alookup matches1.values a.name).isNone) with
        | some a =>
          if a.positional then .error (.missingPositional a.name (a.position.getD 0))
          else .error (.missingRequired a.name)
        | none => .ok { matches1 with program_name := A.name }

/-! ### Association-list laws shared by the merge-engine proofs -/

theorem alookup_ainsert (m : Assoc) (k : Str) (v : Value) (k' : Str) :
    alookup (ainsert m k v) k' = if k = k' then some v else alookup m k' := by
  induction m with
  | nil => simp [ainsert, alookup]
  | cons p rest ih =>
    obtain ⟨pk, pv⟩ := p
    by_cases h : pk = k
    · subst h
      simp only [ainsert, if_pos rfl, alookup]
      by_cases h' : pk = k' <;> simp [h']
    · simp only [ainsert, if_neg h, alookup, ih]
      by_cases h' : pk = k'
      · subst h'
        have hkk : ¬ k = pk := fun he => h he.symm
        simp [hkk]
      · simp [h']

theorem alookup_append (m m2 : Assoc) (k : Str) :
    alookup (m ++ m2) k = ((alookup m k).map some).getD (alookup m2 k) := by
  induction m with
  | nil => simp [alookup]
  | cons p rest ih =>
    by_cases h : p.1 = k <;> simp [alookup, h, ih]

theorem insertIfAbsent_keeps (m : Assoc) (k : Str) (v : Value) (k' : Str)
    (w : Value) (h : alookup m k' = some w) :
    alookup (insertIfAbsent m k v) k' = some w := by
  unfold insertIfAbsent
  cases hk : (alookup m k).isSome with
  | true => simpa [hk] using h
  | false =>
    simp only [hk, Bool.false_eq_true, if_false]
    rw [alookup_append, h]
    rfl

/-- `merge_toml` never replaces a present binding (it only uses
insert-if-absent). -/
theorem merge_toml_keeps (m : Assoc) (pfx : Str) (t : Table) :
    ∀ k w, alookup m k = some w → alookup (merge_toml m pfx t) k = some w := by
  refine merge_toml.induct
    (fun m full v => ∀ k w, alookup m k = some w → alookup (mergeVal m full v) k = some w)
    (fun m pfx t => ∀ k w, alookup m k = some w → alookup (merge_toml m pfx t) k = some w)
    ?_ ?_ ?_ ?_ m pfx t
  · intro m full inner ih k w h
    rw [mergeVal]
    exact ih k w h
  · intro v m full hnt k w h
    rw [mergeVal.eq_def]
    cases v with
    | table inner => exact absurd rfl (hnt inner)
    | str s => exact h
    | int n => exact h
    | float s => exact h
    | bool b => exact h
    | arr a => exact h
  · intro m pfx k w h
    rw [merge_toml]
    exact h
  · intro m pfx key v rest ih1 ih2 k w h
    rw [merge_toml]
    exact ih2 k w (insertIfAbsent_keeps _ _ _ _ _ (ih1 k w h))

/-- `with_defaults` never replaces a present binding. -/
theorem with_defaults_keeps (m : Assoc) (specs : List Arg) (k : Str)
    (v : Value) (h : alookup m k = some v) :
    alookup (with_defaults m specs) k = some v := by
  induction specs generalizing m with
  | nil => simpa [with_defaults] using h
  | cons a rest ih =>
    rw [with_defaults]
    cases hd : a.default with
    | none => exact ih m h
    | some d =>
      cases hmn : alookup m a.name with
      | some w => simp only; exact ih m h
      | none =>
        simp only
        apply ih
        rw [alookup_ainsert]
        have hne : ¬ a.name = k := by
          intro he
          rw [he, h] at hmn
          exact Option.noConfusion hmn
        simp [hne, h]

/-! ### Example argument specifications used by concrete witnesses -/

/-- A Boolean `--verbose` flag (as built by `.flag()`). -/
def verboseArgEx : Arg :=
  { name := cs "verbose", short := some 'v', long := some (cs "verbose"),
    arg_type := .bool, default := some (.bool false) }

/-- An Integer `--port` option with default `8080`. -/
def portArgEx : Arg :=
  { name := cs "port", short := some 'p', long := some (cs "port"),
    arg_type := .integer, default := some (.int 8080) }

/-- A String option with short alias `o` and long alias `output`. -/
def outputArgEx : Arg :=
  { name := cs "out", short := some 'o', long := some (cs "output") }

/-- A String `-f` option with no long alias. -/
def fArgEx : Arg := { name := cs "f", short := some 'f' }

/-- A Count `-x` flag (as built by `.count()`). -/
def xCountArgEx : Arg :=
  { name := cs "x", short := some 'x', arg_type := .count,
    default := some (.int 0) }

/-! ### C1 — CLI values survive every merge step -/

/-- C1: any binding already present in the mapping produced by CLI
tokenization keeps its exact value through `merge_toml` (over any config
table and prefix) followed by `with_defaults` (over any spec list): both
steps insert only when the key is absent, so the CLI value is present
verbatim in the final resolved mapping. -/
theorem cli_value_survives_merge_and_defaults (m : Assoc) (pfx : Str)
    (t : Table) (specs : List Arg) (k : Str) (v : Value)
    (h : alookup m k = some v) :
    alookup (with_defaults (merge_toml m pfx t) specs) k = some v :=
  with_defaults_keeps _ _ _ _ (merge_toml_keeps m pfx t k v h)

/-- Witness for C1 at a concrete input: CLI `port = 9090` survives a config
table carrying `port = 1` and a default of `8080`. -/
theorem cli_value_survives_merge_and_defaults_witness :
    alookup [(cs "port", Value.int 9090)] (cs "port") = some (.int 9090) ∧
    alookup (with_defaults
        (merge_toml [(cs "port", Value.int 9090)] [] [(cs "port", .int 1)])
        [portArgEx]) (cs "port") = some (.int 9090) :=
  ⟨rfl, cli_value_survives_merge_and_defaults _ _ _ _ _ _ rfl⟩

/-! ### C7 — the `--` terminator is one-directional and permanent -/

/-- C7: once `ArgParser::parse` has seen the first `--` token the state
machine is in pass-through mode permanently: every later token is appended,
in order, to the remaining-tokens list — never classified as a flag, value,
or positional, and never an error — and the `--` token itself flips the
state exactly once. -/
theorem double_dash_pass_through (P : ArgParser) :
    (∀ m posIdx ts, parseLoop P m posIdx true ts =
      .ok { m with remaining := m.remaining ++ ts }) ∧
    (∀ m posIdx rest, parseLoop P m posIdx false (['-', '-'] :: rest) =
      parseLoop P m posIdx true rest) := by
  constructor
  · intro m posIdx ts
    induction ts generalizing m with
    | nil =>
      rw [parseLoop.eq_def]
      simp
    | cons tok rest ih =>
      rw [parseLoop.eq_def]
      simp only [if_true]
      rw [ih]
      simp
  · intro m posIdx rest
    rw [parseLoop.eq_def]
    simp

/-! ### C8 — negation flags set `false` at tokenization time -/

/-- C8: a token `--no-X`, where `X` is a known long alias of a
Boolean-typed argument, makes the tokenizer insert `false` for that
argument (short-circuiting normal long-flag lookup) and continue; and since
the `false` is inserted at tokenization time, a later `merge_toml` cannot
replace it — concretely, with config tree `{verbose: true}` and CLI token
`--no-verbose`, the resolved `verbose` is `false`. -/
theorem no_dash_negation_inserts_false :
    (∀ (P : ArgParser) (X : Str) (idx : Nat),
      slookup P.long_map X = some idx →
      (P.argAt idx).arg_type = .bool →
      ∀ (m : Matches) (posIdx : Nat) (rest : List Str),
        parseLoop P m posIdx false ((cs "--no-" ++ X) :: rest) =
          parseLoop P (m.insertVal (P.argAt idx).name (.bool false))
            posIdx false rest) ∧
    alookup (merge_toml
        (match ArgParser.parse (ArgParser.new [verboseArgEx]) [cs "--no-verbose"] with
          | .ok m => m.values
          | .error _ => [])
        [] [(cs "verbose", .bool true)]) (cs "verbose") = some (.bool false) := by
  constructor
  · intro P X idx hidx hbool m posIdx rest
    have hcs : cs "--no-" = ['-', '-', 'n', 'o', '-'] := rfl
    rw [parseLoop]
    have hne : ¬ (cs "--no-" ++ X = ['-', '-']) := by
      rw [hcs]
      simp
    rw [if_neg (by simp), if_neg hne]
    have hdrop : dropPre ['-', '-'] (cs "--no-" ++ X) = some (['n', 'o', '-'] ++ X) := by
      rw [hcs]
      simp [dropPre]
    have hneg : negationIdx P (['n', 'o', '-'] ++ X) = some idx := by
      have : dropPre (cs "no-") (['n', 'o', '-'] ++ X) = some X := by
        simp [cs, dropPre]
      simp only [negationIdx, this, hidx, if_pos hbool]
    simp only [normalStep, hdrop, hneg]
  · have hp : ArgParser.parse (ArgParser.new [verboseArgEx]) [cs "--no-verbose"] =
        .ok { values := [(cs "verbose", Value.bool false)], program_name := [],
              remaining := [] } := rfl
    rw [hp]
    simp [merge_toml, mergeVal, insertIfAbsent, alookup, fullKey, cs]

/-- Witness for C8's general negation step at a concrete parser: for the
`--verbose` Boolean spec the token `--no-verbose` inserts `false`. -/
theorem no_dash_negation_inserts_false_witness :
    parseLoop (ArgParser.new [verboseArgEx]) Matches.new 0 false [cs "--no-verbose"] =
      parseLoop (ArgParser.new [verboseArgEx])
        (Matches.new.insertVal ((ArgParser.new [verboseArgEx]).argAt 0).name (.bool false))
        0 false [] :=
  no_dash_negation_inserts_false.1 (ArgParser.new [verboseArgEx])
    (cs "verbose") 0 rfl rfl Matches.new 0 []

/-! ### C6 — short-flag cluster scanning -/

/-- The one-character effect of a Boolean or Count short alias inside a
cluster (the two non-value arms of the scan loop). -/
def shortFlagEffect (P : ArgParser) (m : Matches) (c : Char) : Matches :=
  match clookup P.short_map c with
  | some idx =>
    let a := P.argAt idx
    match a.arg_type with
    | .bool => m.insertVal a.name (.bool true)
    | .count =>
      m.insertVal a.name
        (.int (((alookup m.values a.name).bind Value.asInteger).getD 0 + 1))
    | _ => m
  | none => m

/-- A declared type that makes a short alias consume a value (the `_` arm
of the cluster scan: String, Integer, Float, or Array). -/
def isValueTyped (t : ArgType) : Prop := t ≠ .bool ∧ t ≠ .count

/-- C6: in a short-flag cluster, scanning proceeds left-to-right — every
Boolean/Count alias consumes exactly one character and applies its effect
in order; when a value-typed alias is reached with characters remaining,
those characters become its value and scanning of the token stops
immediately; with no characters remaining, the next whole token is consumed
as the value, and with no next token the scan fails with `MissingValue`. -/
theorem short_cluster_scan :
    (∀ (P : ArgParser) (bs cluster : List Char) (m : Matches) (next? : Option Str),
      (∀ c ∈ bs, ∃ idx, clookup P.short_map c = some idx ∧
        ((P.argAt idx).arg_type = .bool ∨ (P.argAt idx).arg_type = .count)) →
      shortLoop P m next? (bs ++ cluster) =
        shortLoop P (bs.foldl (shortFlagEffect P) m) next? cluster) ∧
    (∀ (P : ArgParser) (c : Char) (idx : Nat) (restc : List Char)
        (m : Matches) (next? : Option Str),
      clookup P.short_map c = some idx →
      isValueTyped (P.argAt idx).arg_type →
      restc ≠ [] →
      shortLoop P m next? (c :: restc) =
        match set_value P idx restc m with
        | .error e => .error e
        | .ok m' => .ok (m', false)) ∧
    (∀ (P : ArgParser) (c : Char) (idx : Nat) (m : Matches) (v : Str),
      clookup P.short_map c = some idx →
      isValueTyped (P.argAt idx).arg_type →
      shortLoop P m (some v) [c] =
        match set_value P idx v m with
        | .error e => .error e
        | .ok m' => .ok (m', true)) ∧
    (∀ (P : ArgParser) (c : Char) (idx : Nat) (m : Matches),
      clookup P.short_map c = some idx →
      isValueTyped (P.argAt idx).arg_type →
      shortLoop P m none [c] = .error (.missingValue (P.argAt idx).name)) := by
  refine ⟨?_, ?_, ?_, ?_⟩
  · intro P bs cluster m next? hbs
    induction bs generalizing m with
    | nil => simp
    | cons c bs' ih =>
      obtain ⟨idx, hc, hty⟩ := hbs c (List.mem_cons_self c bs')
      have hrest : ∀ c' ∈ bs', ∃ idx, clookup P.short_map c' = some idx ∧
          ((P.argAt idx).arg_type = .bool ∨ (P.argAt idx).arg_type = .count) :=
        fun c' hc' => hbs c' (List.mem_cons_of_mem c hc')
      rcases hty with hty | hty
      · rw [List.cons_append, shortLoop, hc]
        simp only [hty, List.foldl_cons]
        rw [ih _ hrest]
        simp [shortFlagEffect, hc, hty]
      · rw [List.cons_append, shortLoop, hc]
        simp only [hty, List.foldl_cons]
        rw [ih _ hrest]
        simp [shortFlagEffect, hc, hty]
  · intro P c idx restc m next? hc hty hne
    obtain ⟨hb, hct⟩ := hty
    rw [shortLoop, hc]
    cases h : (P.argAt idx).arg_type <;> simp_all [shortLoop]
  · intro P c idx m v hc hty
    obtain ⟨hb, hct⟩ := hty
    rw [shortLoop, hc]
    cases h : (P.argAt idx).arg_type <;> simp_all [shortLoop]
  · intro P c idx m hc hty
    obtain ⟨hb, hct⟩ := hty
    rw [shortLoop, hc]
    cases h : (P.argAt idx).arg_type <;> simp_all [shortLoop]

/-- Witness for C6 at a concrete parser (`-v` Boolean, `-x` Count, `-f`
String): the cluster prefix `vx` folds its effects, `f` with trailing
characters takes them as its value, `f` alone takes the next token, and
`f` last with no next token is `MissingValue`. -/
theorem short_cluster_scan_witness :
    (shortLoop (ArgParser.new [verboseArgEx, xCountArgEx, fArgEx]) Matches.new
        none (['v', 'x'] ++ ['f', 'o']) =
      shortLoop (ArgParser.new [verboseArgEx, xCountArgEx, fArgEx])
        (['v', 'x'].foldl (shortFlagEffect (ArgParser.new [verboseArgEx, xCountArgEx, fArgEx]))
          Matches.new) none ['f', 'o']) ∧
    (shortLoop (ArgParser.new [verboseArgEx, xCountArgEx, fArgEx]) Matches.new
        none ('f' :: ['o']) =
      match set_value (ArgParser.new [verboseArgEx, xCountArgEx, fArgEx]) 2 ['o'] Matches.new with
      | .error e => .error e
      | .ok m' => .ok (m', false)) ∧
    (shortLoop (ArgParser.new [verboseArgEx, xCountArgEx, fArgEx]) Matches.new
        (some (cs "val")) ['f'] =
      match set_value (ArgParser.new [verboseArgEx, xCountArgEx, fArgEx]) 2 (cs "val") Matches.new with
      | .error e => .error e
      | .ok m' => .ok (m', true)) ∧
    shortLoop (ArgParser.new [verboseArgEx, xCountArgEx, fArgEx]) Matches.new
        none ['f'] =
      .error (.missingValue ((ArgParser.new [verboseArgEx, xCountArgEx, fArgEx]).argAt 2).name) := by
  refine ⟨?_, ?_, ?_, ?_⟩
  · refine short_cluster_scan.1 _ _ _ _ _ ?_
    intro c hc
    fin_cases hc
    · exact ⟨0, rfl, Or.inl rfl⟩
    · exact ⟨1, rfl, Or.inr rfl⟩
  · exact short_cluster_scan.2.1 _ _ 2 _ _ _ rfl ⟨by decide, by decide⟩ (by decide)
  · exact short_cluster_scan.2.2.1 _ _ 2 _ _ rfl ⟨by decide, by decide⟩
  · exact short_cluster_scan.2.2.2 _ _ 2 _ rfl ⟨by decide, by decide⟩

/-! ### C3 — duplicate occurrences of value-taking arguments -/

theorem dropPre_append (p s : Str) : dropPre p (p ++ s) = some s := by
  induction p with
  | nil => rfl
  | cons c p' ih => simp [dropPre, ih]

theorem dropPre_some (p s r : Str) (h : dropPre p s = some r) : s = p ++ r := by
  induction p generalizing s with
  | nil =>
    cases s <;> simp_all [dropPre]
  | cons c p' ih =>
    cases s with
    | nil => simp [dropPre] at h
    | cons b s' =>
      rw [dropPre] at h
      by_cases hcb : c = b
      · subst hcb
        simp only [if_pos rfl] at h
        simpa using ih s' h
      · simp [hcb] at h

theorem splitEq_no_eq (r : Str) (h : '=' ∉ r) : splitEq r = (r, none) := by
  induction r with
  | nil => rfl
  | cons c t ih =>
    have hc : c ≠ '=' := fun he => h (he ▸ List.mem_cons_self c t)
    have ht : '=' ∉ t := fun hm => h (List.mem_cons_of_mem c hm)
    rw [splitEq.eq_def]
    split
    · simp_all
    · simp_all
    · rename_i r2 c2 t2 hne2 heq
      cases heq
      rw [ih ht]

/-- C3 (counterexample): the claim includes Boolean-typed arguments, but a
repeated Boolean flag never reaches the duplicate check — `--verbose
--verbose` tokenizes successfully to `verbose = true` instead of failing
with `DuplicateValue`. -/
theorem duplicate_boolean_not_rejected :
    ArgParser.parse (ArgParser.new [verboseArgEx]) [cs "--verbose", cs "--verbose"] =
      .ok { values := [(cs "verbose", Value.bool true)], program_name := [],
            remaining := [] } := rfl

/-- C3 (amended): for every non-positional argument of declared type
String, Integer, or Float (value-taking, duplicate-checked), supplying the
argument a second time makes tokenization fail with `DuplicateValue`
(given that the first value coerces); Boolean arguments are excluded — a
repeated Boolean flag overwrites idempotently. -/
theorem duplicate_value_typed_rejected (a : Arg) (L v1 v2 : Str) (w : Value)
    (hpos : a.positional = false)
    (hlong : a.long = some L)
    (hLne : L ≠ [])
    (hEq : '=' ∉ L)
    (ht : a.arg_type = .string ∨ a.arg_type = .integer ∨ a.arg_type = .float)
    (hv1 : parse_value_as_type v1 a.arg_type = .ok w) :
    ArgParser.parse (ArgParser.new [a])
        [['-', '-'] ++ L, v1, ['-', '-'] ++ L, v2] =
      .error (.duplicateValue a.name) := by
  have hLM : (ArgParser.new [a]).long_map = [(L, 0)] := by
    simp [ArgParser.new, List.range_succ, hpos, hlong, sinsert]
  have hAt : (ArgParser.new [a]).argAt 0 = a := rfl
  have hne2 : ¬ (['-', '-'] ++ L = ['-', '-']) := by
    intro he
    exact hLne (by simpa using he)
  have hdrop : dropPre ['-', '-'] (['-', '-'] ++ L) = some L := dropPre_append _ _
  have hnegIdx : negationIdx (ArgParser.new [a]) L = none := by
    rw [negationIdx]
    cases hno : dropPre (cs "no-") L with
    | none => rfl
    | some fn =>
      have hLfn : L = cs "no-" ++ fn := dropPre_some _ _ _ hno
      have hner : ¬ (L = fn) := by
        intro he
        rw [he] at hLfn
        have hlen := congrArg List.length hLfn
        simp [cs] at hlen
        omega
      simp [hLM, slookup, hner]
  have hsplit : splitEq L = (L, none) := splitEq_no_eq L hEq
  have hstep2 : ∀ (pos : Nat) (m : Matches) (nx : Str),
      (alookup m.values a.name).isSome →
      normalStep (ArgParser.new [a]) m pos (['-', '-'] ++ L) (some nx) =
        .error (.duplicateValue a.name) := by
    intro pos m nx hsome
    unfold normalStep
    rw [hdrop]
    simp only [hnegIdx, hsplit, hLM]
    have hsl : slookup [(L, 0)] L = some 0 := by simp [slookup]
    simp only [hsl]
    have hsv : ∀ v : Str, set_value (ArgParser.new [a]) 0 v m =
        .error (.duplicateValue a.name) := by
      intro v
      rw [set_value, hAt]
      rcases ht with h | h | h <;> simp [h, hsome]
    rcases ht with h | h | h <;>
      · rw [handle_flag, hAt]
        simp only [h]
        simp [hsv]
  have hstep1 : ∀ (pos : Nat),
      normalStep (ArgParser.new [a]) Matches.new pos (['-', '-'] ++ L) (some v1) =
        .ok (Matches.new.insertVal a.name w, pos, true) := by
    intro pos
    unfold normalStep
    rw [hdrop]
    simp only [hnegIdx, hsplit, hLM]
    have hsl : slookup [(L, 0)] L = some 0 := by simp [slookup]
    simp only [hsl]
    have hsv : set_value (ArgParser.new [a]) 0 v1 Matches.new =
        .ok (Matches.new.insertVal a.name w) := by
      rw [set_value, hAt]
      rcases ht with h | h | h <;>
        · simp only [h]
          rw [if_neg (by simp [Matches.new, alookup])]
          rw [h] at hv1
          simp [hv1]
    rcases ht with h | h | h <;>
      · rw [handle_flag, hAt]
        simp only [h]
        simp [hsv]
  rw [ArgParser.parse, parseLoop, if_neg (by simp), if_neg hne2]
  rw [show (v1 :: (['-', '-'] ++ L) :: [v2]).head? = some v1 from rfl]
  rw [hstep1]
  simp only
  rw [parseLoop, if_neg (by simp), if_neg hne2]
  rw [show ([v2] : List Str).head? = some v2 from rfl]
  rw [hstep2 0 (Matches.new.insertVal a.name w) v2
    (by simp [Matches.new, Matches.insertVal, ainsert, alookup])]

/-- Witness for C3's amended theorem: a String-typed `--output` argument
supplied twice fails with `DuplicateValue`. -/
theorem duplicate_value_typed_rejected_witness :
    ArgParser.parse (ArgParser.new [outputArgEx])
        [['-', '-'] ++ cs "output", cs "a", ['-', '-'] ++ cs "output", cs "b"] =
      .error (.duplicateValue (cs "out")) :=
  duplicate_value_typed_rejected outputArgEx (cs "output") (cs "a") (cs "b")
    (.str (cs "a")) rfl rfl (by decide) (by decide) (Or.inl rfl) rfl

/-! ### C2 — defaults are applied by `with_defaults`, not by `parse_from` -/

/-- The default that `with_defaults` would insert for a name: the declared
default of the first spec bearing that name and a default. -/
def defaultFor : List Arg → Str → Option Value
  | [], _ => none
  | a :: rest, nm =>
    if a.name = nm ∧ a.default.isSome then a.default else defaultFor rest nm

/-- C2 (counterexample): `Args::parse_from` applies no defaults — with a
single `port` spec declaring default `8080` and an empty token list, the
mapping returned by `parse_from` does not contain `port` at all (the claim
says it would map `port` to `8080`). -/
theorem parse_from_applies_no_defaults :
    portArgEx.default = some (.int 8080) ∧
    parse_from { name := cs "app", args := [portArgEx] } (fun _ => false)
        (fun _ => .error (.mk [])) [] =
      .ok { values := [], program_name := cs "app", remaining := [] } :=
  ⟨rfl, rfl⟩

/-- C2 (amended): defaults are applied by the separate `Matches::with_defaults`
step, not inside `parse_from`: for every spec list and every name absent
from the mapping, `with_defaults` maps the name to the declared default of
the first spec bearing that name and a default, and leaves the key absent
when no such spec exists. -/
theorem with_defaults_fills_absent (m : Assoc) (specs : List Arg) (nm : Str)
    (habs : alookup m nm = none) :
    alookup (with_defaults m specs) nm = defaultFor specs nm := by
  induction specs generalizing m with
  | nil => simpa [with_defaults, defaultFor] using habs
  | cons a rest ih =>
    rw [with_defaults, defaultFor]
    by_cases hn : a.name = nm
    · have hmn : alookup m a.name = none := by rw [hn]; exact habs
      cases hd : a.default with
      | none =>
        rw [if_neg (by simp)]
        exact ih m habs
      | some d =>
        rw [hmn, if_pos ⟨hn, rfl⟩]
        show alookup (with_defaults (ainsert m a.name d) rest) nm = some d
        apply with_defaults_keeps
        rw [alookup_ainsert]
        simp [hn]
    · rw [if_neg (fun hx => hn hx.1)]
      cases hd : a.default with
      | none => exact ih m habs
      | some d =>
        cases hmn : alookup m a.name with
        | some w => simp only; exact ih m habs
        | none =>
          simp only
          apply ih
          rw [alookup_ainsert]
          simp [hn, habs]

/-- Witness for C2's amended theorem: with `port` absent from the mapping,
`with_defaults` over the `port` spec inserts `8080`; over a spec list with
no default for `port`, the key stays absent. -/
theorem with_defaults_fills_absent_witness :
    alookup ([] : Assoc) (cs "port") = none ∧
    alookup (with_defaults [] [portArgEx]) (cs "port") = defaultFor [portArgEx] (cs "port") ∧
    alookup (with_defaults [] [outputArgEx]) (cs "port") = defaultFor [outputArgEx] (cs "port") :=
  ⟨rfl, with_defaults_fills_absent [] [portArgEx] (cs "port") rfl,
    with_defaults_fills_absent [] [outputArgEx] (cs "port") rfl⟩

/-! ### C5 — a missing explicit config path does not produce `MissingConfig` -/

/-- The `Args` value used for the C5 counterexample: automatic config flag
enabled, no default config path. -/
def argsAutoCfg : Args := { name := cs "app", auto_config := true }

/-- C5 (counterexample): with the automatic config flag enabled and the
explicit tokens `-c missing.toml`, a file system where the file is absent
makes the external TOML loader fail, and `parse_from` propagates that
failure as `Error::Toml` — not as the `MissingConfig` error the claim
names. -/
theorem missing_explicit_config_is_toml_error :
    parse_from argsAutoCfg (fun _ => false) (fun p => .error (.mk p))
        [cs "-c", cs "missing.toml"] =
      .error (.toml (.mk (cs "missing.toml"))) ∧
    ¬ (parse_from argsAutoCfg (fun _ => false) (fun p => .error (.mk p))
        [cs "-c", cs "missing.toml"] =
      .error (.missingConfig (cs "missing.toml"))) := by
  refine ⟨rfl, ?_⟩
  intro h
  rw [show parse_from argsAutoCfg (fun _ => false) (fun p => .error (.mk p))
      [cs "-c", cs "missing.toml"] =
      .error (.toml (.mk (cs "missing.toml"))) from rfl] at h
  simp at h

/-- C5 (amended): `load_config_file` never produces `MissingConfig` for any
input; when the requested path differs from the declared default (the
explicit `-c`/`--config` case) the external loader's failure is propagated
as `Error::Toml`; when the requested path equals the declared default and
the file is absent, the config is silently skipped (`Ok(None)`); and
`parse_from` propagates any config-loading error unchanged. -/
theorem missing_config_never_raised :
    (∀ (A : Args) (ex : Str → Bool) (pf : Str → Except TomlError Table)
        (p? : Option Str) (q : Str),
      load_config_file A ex pf p? ≠ .error (.missingConfig q)) ∧
    (∀ (A : Args) (ex : Str → Bool) (pf : Str → Except TomlError Table) (p : Str),
      ¬ (A.default_config = some p ∧ ex p = false) →
      load_config_file A ex pf (some p) =
        match pf p with
        | .ok t => .ok (some t)
        | .error e => .error (.toml e)) ∧
    (∀ (A : Args) (ex : Str → Bool) (pf : Str → Except TomlError Table) (p : Str),
      A.default_config = some p → ex p = false →
      load_config_file A ex pf (some p) = .ok none) ∧
    (∀ (A : Args) (ex : Str → Bool) (pf : Str → Except TomlError Table)
        (argv : List Str) (e : Error),
      A.auto_config = true →
      load_config_file A ex pf (extract_config_path A.default_config argv) = .error e →
      parse_from A ex pf argv = .error e) := by
  refine ⟨?_, ?_, ?_, ?_⟩
  · intro A ex pf p? q h
    match p? with
    | none => exact Except.noConfusion h
    | some p =>
      rw [load_config_file] at h
      by_cases hc : A.default_config = some p ∧ ex p = false
      · rw [if_pos hc] at h
        exact Except.noConfusion h
      · rw [if_neg hc] at h
        cases hpf : pf p with
        | ok t => rw [hpf] at h; exact Except.noConfusion h
        | error e =>
          rw [hpf] at h
          have := Except.error.inj h
          exact Error.noConfusion this
  · intro A ex pf p hne
    rw [load_config_file, if_neg hne]
  · intro A ex pf p hd hex
    rw [load_config_file, if_pos ⟨hd, hex⟩]
  · intro A ex pf argv e hauto herr
    rw [parse_from, hauto]
    simp only [if_true, herr]

/-- Witness for C5's amended theorem at concrete inputs: the loader maps an
absent explicit path to `Error::Toml`, skips an absent default path, and
`parse_from` propagates the loader failure. -/
theorem missing_config_never_raised_witness :
    load_config_file argsAutoCfg (fun _ => false) (fun p => .error (.mk p))
        (some (cs "missing.toml")) ≠ .error (.missingConfig (cs "missing.toml")) ∧
    load_config_file argsAutoCfg (fun _ => false) (fun p => .error (.mk p))
        (some (cs "missing.toml")) = .error (.toml (.mk (cs "missing.toml"))) ∧
    load_config_file { argsAutoCfg with default_config := some (cs "d.toml") }
        (fun _ => false) (fun p => .error (.mk p)) (some (cs "d.toml")) = .ok none ∧
    parse_from argsAutoCfg (fun _ => false) (fun p => .error (.mk p))
        [cs "-c", cs "missing.toml"] = .error (.toml (.mk (cs "missing.toml"))) := by
  refine ⟨missing_config_never_raised.1 _ _ _ _ _, ?_,
    missing_config_never_raised.2.2.1 _ _ _ _ rfl rfl,
    missing_config_never_raised.2.2.2 _ _ _ _ _ rfl rfl⟩
  exact (missing_config_never_raised.2.1 argsAutoCfg (fun _ => false)
    (fun p => .error (.mk p)) (cs "missing.toml") (by simp [argsAutoCfg])).trans rfl

/-! ### C10 — the config pre-scan ignores `--` and value positions -/

/-- C10: `extract_config_path` inspects every raw token with no regard for
the `--` terminator or other flags' value positions. With tokens
`["--", "-c", "x.toml"]` it extracts `x.toml` — and `parse_from` attempts
to load that file — even though tokenization itself passes both tokens
through verbatim; with token `-fcx` (the String flag `f` with inline value
`cx`) it extracts `x` from inside the other flag's value. -/
theorem config_prescan_ignores_structure :
    extract_config_path none [cs "--", cs "-c", cs "x.toml"] = some (cs "x.toml") ∧
    ArgParser.parse (ArgParser.new []) [cs "--", cs "-c", cs "x.toml"] =
      .ok { values := [], program_name := [], remaining := [cs "-c", cs "x.toml"] } ∧
    parse_from argsAutoCfg (fun _ => false) (fun p => .error (.mk p))
        [cs "--", cs "-c", cs "x.toml"] = .error (.toml (.mk (cs "x.toml"))) ∧
    extract_config_path none [cs "-fcx"] = some (cs "x") ∧
    ArgParser.parse (ArgParser.new [fArgEx]) [cs "-fcx"] =
      .ok { values := [(cs "f", .str (cs "cx"))], program_name := [],
            remaining := [] } :=
  ⟨rfl, rfl, rfl, rfl, rfl⟩

/-! ### C9 — lenient Boolean and strict numeric coercion -/

/-- Positional base-10 value of a digit string continued from accumulator
`acc` (only used under an all-digits hypothesis). -/
def decValI : List Char → Int → Int
  | [], acc => acc
  | c :: t, acc => decValI t (acc * 10 + ((charDigit c).getD 0 : Nat))

/-- Negated positional base-10 value (mirror of `decValI` for the
subtracting accumulation of a `-`-signed parse). -/
def decNegI : List Char → Int → Int
  | [], acc => acc
  | c :: t, acc => decNegI t (acc * 10 - ((charDigit c).getD 0 : Nat))

/-- Specification-side reading of "base-10 signed 64-bit parse": an
optional sign on the first character, a nonempty all-digits body, the
signed positional value, and one final signed-64-bit range check. -/
def specI64 (s : Str) : Option Int :=
  match s with
  | [] => none
  | c :: t =>
    let sign : Int := if c = '-' then -1 else 1
    let ds : Str := if c = '+' ∨ c = '-' then t else c :: t
    if allDigits ds then
      let v := sign * decValI ds 0
      if i64Min ≤ v ∧ v ≤ i64Max then some v else none
    else none

theorem decValI_ge (ds : List Char) : ∀ x : Int, 0 ≤ x → x ≤ decValI ds x := by
  induction ds with
  | nil => intro x _; exact le_refl x
  | cons c t ih =>
    intro x hx
    have hd : (0 : Int) ≤ ((charDigit c).getD 0 : Nat) := Int.natCast_nonneg _
    have hstep : x ≤ x * 10 + ((charDigit c).getD 0 : Nat) := by nlinarith
    exact le_trans hstep (ih _ (by nlinarith))

theorem decNegI_le (ds : List Char) : ∀ x : Int, x ≤ 0 → decNegI ds x ≤ x := by
  induction ds with
  | nil => intro x _; exact le_refl x
  | cons c t ih =>
    intro x hx
    have hd : (0 : Int) ≤ ((charDigit c).getD 0 : Nat) := Int.natCast_nonneg _
    have hstep : x * 10 - ((charDigit c).getD 0 : Nat) ≤ x := by nlinarith
    exact le_trans (ih _ (by nlinarith)) hstep

/-- The stepwise overflow checks of the positive accumulation loop are
equivalent to one final upper-bound check on the whole value. -/
theorem checkedPos_eq (ds : List Char) : ∀ acc : Int, 0 ≤ acc → acc ≤ i64Max →
    checkedPos acc ds =
      if (ds.all fun c => (charDigit c).isSome) = true ∧ decValI ds acc ≤ i64Max
      then some (decValI ds acc) else none := by
  induction ds with
  | nil =>
    intro acc h0 hmax
    simp [checkedPos, decValI, hmax]
  | cons c t ih =>
    intro acc h0 hmax
    cases hc : charDigit c with
    | none => simp [checkedPos, hc]
    | some d =>
      have hd0 : (0 : Int) ≤ (d : Nat) := Int.natCast_nonneg _
      have hgd : ((charDigit c).getD 0 : Nat) = d := by rw [hc]; rfl
      simp only [checkedPos, hc]
      by_cases hov : acc * 10 + (d : Int) ≤ i64Max
      · rw [if_pos hov, ih _ (by nlinarith) hov]
        simp only [List.all_cons, hc, Option.isSome_some, Bool.true_and, decValI, hgd,
          Option.getD_some]
      · rw [if_neg hov]
        have hbig : ¬ decValI (c :: t) acc ≤ i64Max := by
          rw [decValI, hgd]
          intro hle
          exact hov (le_trans (decValI_ge t _ (by nlinarith)) hle)
        simp [hbig]

/-- The stepwise overflow checks of the negative accumulation loop are
equivalent to one final lower-bound check on the whole value. -/
theorem checkedNeg_eq (ds : List Char) : ∀ acc : Int, acc ≤ 0 → i64Min ≤ acc →
    checkedNeg acc ds =
      if (ds.all fun c => (charDigit c).isSome) = true ∧ i64Min ≤ decNegI ds acc
      then some (decNegI ds acc) else none := by
  induction ds with
  | nil =>
    intro acc h0 hmin
    simp [checkedNeg, decNegI, hmin]
  | cons c t ih =>
    intro acc h0 hmin
    cases hc : charDigit c with
    | none => simp [checkedNeg, hc]
    | some d =>
      have hd0 : (0 : Int) ≤ (d : Nat) := Int.natCast_nonneg _
      have hgd : ((charDigit c).getD 0 : Nat) = d := by rw [hc]; rfl
      simp only [checkedNeg, hc]
      by_cases hov : i64Min ≤ acc * 10 - (d : Int)
      · rw [if_pos hov, ih _ (by nlinarith) hov]
        simp only [List.all_cons, hc, Option.isSome_some, Bool.true_and, decNegI, hgd,
          Option.getD_some]
      · rw [if_neg hov]
        have hbig : ¬ i64Min ≤ decNegI (c :: t) acc := by
          rw [decNegI, hgd]
          intro hle
          exact hov (le_trans hle (decNegI_le t _ (by nlinarith)))
        simp [hbig]

theorem decNegI_eq_neg (ds : List Char) : ∀ x : Int, decNegI ds x = -decValI ds (-x) := by
  induction ds with
  | nil => intro x; simp [decNegI, decValI]
  | cons c t ih =>
    intro x
    rw [decNegI, decValI, ih]
    ring_nf

theorem checkedPos_zero (ds : List Char) (hne : ds ≠ []) :
    checkedPos 0 ds =
      if allDigits ds then
        (if i64Min ≤ decValI ds 0 ∧ decValI ds 0 ≤ i64Max
          then some (decValI ds 0) else none)
      else none := by
  rw [checkedPos_eq ds 0 le_rfl (by norm_num [i64Max])]
  have h0 : (0 : Int) ≤ decValI ds 0 := decValI_ge ds 0 le_rfl
  have hmin : i64Min ≤ decValI ds 0 := le_trans (by norm_num [i64Min]) h0
  by_cases ha : (ds.all fun c => (charDigit c).isSome) = true
  · have hall : allDigits ds = true := by
      simp [allDigits, hne, ha]
    by_cases hm : decValI ds 0 ≤ i64Max <;> simp [ha, hall, hm, hmin]
  · have hall : allDigits ds = false := by
      have hfb : (ds.all fun c => (charDigit c).isSome) = false := by
        cases hval : (ds.all fun c => (charDigit c).isSome)
        · rfl
        · exact absurd hval ha
      simp [allDigits, hfb]
    simp [ha, hall]

theorem checkedNeg_zero (ds : List Char) (hne : ds ≠ []) :
    checkedNeg 0 ds =
      if allDigits ds then
        (if i64Min ≤ -decValI ds 0 ∧ -decValI ds 0 ≤ i64Max
          then some (-decValI ds 0) else none)
      else none := by
  rw [checkedNeg_eq ds 0 le_rfl (by norm_num [i64Min])]
  have hzero : decNegI ds 0 = -decValI ds 0 := by
    rw [decNegI_eq_neg]
    norm_num
  have h0 : (0 : Int) ≤ decValI ds 0 := decValI_ge ds 0 le_rfl
  have hmax : -decValI ds 0 ≤ i64Max := by
    have hup : (0 : Int) ≤ i64Max := by norm_num [i64Max]
    omega
  by_cases ha : (ds.all fun c => (charDigit c).isSome) = true
  · have hall : allDigits ds = true := by
      simp [allDigits, hne, ha]
    by_cases hm : i64Min ≤ -decValI ds 0 <;> simp [ha, hall, hm, hmax, hzero]
  · have hall : allDigits ds = false := by
      have hfb : (ds.all fun c => (charDigit c).isSome) = false := by
        cases hval : (ds.all fun c => (charDigit c).isSome)
        · rfl
        · exact absurd hval ha
      simp [allDigits, hfb]
    simp [ha, hall]

/-- The stepwise checked accumulation of `i64::from_str` agrees with the
specification-side single-pass value-and-range-check parse. -/
theorem i64FromStr_eq_specI64 (s : Str) : i64FromStr s = specI64 s := by
  cases s with
  | nil => rfl
  | cons c t =>
    rw [i64FromStr, specI64]
    by_cases hp : c = '+'
    · rw [if_pos hp]
      cases t with
      | nil => simp [hp, allDigits]
      | cons d ts =>
        rw [if_neg (by simp)]
        rw [checkedPos_zero (d :: ts) (by simp)]
        have hsign : (if c = '-' then (-1 : Int) else 1) = 1 := by
          rw [if_neg (by rw [hp]; intro h; cases h)]
        have hds : (if c = '+' ∨ c = '-' then d :: ts else c :: d :: ts) = d :: ts := by
          rw [if_pos (Or.inl hp)]
        simp only [hsign, hds, one_mul]
    · rw [if_neg hp]
      by_cases hm : c = '-'
      · rw [if_pos hm]
        cases t with
        | nil => simp [hm, allDigits]
        | cons d ts =>
          rw [if_neg (by simp)]
          rw [checkedNeg_zero (d :: ts) (by simp)]
          have hsign : (if c = '-' then (-1 : Int) else 1) = -1 := by
            rw [if_pos hm]
          have hds : (if c = '+' ∨ c = '-' then d :: ts else c :: d :: ts) = d :: ts := by
            rw [if_pos (Or.inr hm)]
          simp only [hsign, hds, neg_one_mul]
      · rw [if_neg hm]
        rw [checkedPos_zero (c :: t) (by simp)]
        have hsign : (if c = '-' then (-1 : Int) else 1) = 1 := by rw [if_neg hm]
        have hds : (if c = '+' ∨ c = '-' then t else c :: t) = c :: t := by
          rw [if_neg (by intro h; rcases h with h | h; exact hp h; exact hm h)]
        simp only [hsign, hds, one_mul]

/-- C9: value coercion is lenient for Boolean and strict for the integer
types — Boolean coercion never fails and yields `true` exactly when the
lowercased text is `true`, `1`, or `yes`; Integer and Count coercion
perform the base-10 signed 64-bit parse of the text (optional sign,
nonempty digits, signed-64-bit range) and fail with `InvalidValue` on any
parse failure. -/
theorem coercion_bool_lenient_numeric_strict :
    (∀ s : Str, ∃ b : Bool, parse_value_as_type s .bool = .ok (.bool b) ∧
      (b = true ↔ (lowerStr s = cs "true" ∨ lowerStr s = cs "1" ∨
        lowerStr s = cs "yes"))) ∧
    (∀ s : Str, i64FromStr s = specI64 s) ∧
    (∀ s : Str, parse_value_as_type s .integer =
      match specI64 s with
      | some n => .ok (.int n)
      | none => .error (.invalidValue [] s (cs "an integer"))) ∧
    (∀ s : Str, parse_value_as_type s .count = parse_value_as_type s .integer) := by
  refine ⟨?_, i64FromStr_eq_specI64, ?_, fun s => rfl⟩
  · intro s
    refine ⟨boolOfText s, rfl, ?_⟩
    simp [boolOfText]
  · intro s
    rw [parse_value_as_type, i64FromStr_eq_specI64]

end StomlArgs

namespace StomlArgs

/-! ### C4 — the flatten/unflatten round trip -/

theorem splitDots_dotfree (k : Str) (h : '.' ∉ k) : splitDots k = [k] := by
  induction k with
  | nil => rfl
  | cons c t ih =>
    have hc : c ≠ '.' := fun he => h (he ▸ List.mem_cons_self c t)
    have ht : '.' ∉ t := fun hm => h (List.mem_cons_of_mem c hm)
    rw [splitDots.eq_def]
    split
    · simp_all
    · simp_all
    · rename_i s2 c2 t2 hne2 heq
      cases heq
      rw [ih ht]

theorem ainsert_absent (t : Assoc) (k : Str) (v : Value)
    (h : alookup t k = none) : ainsert t k v = t ++ [(k, v)] := by
  induction t with
  | nil => rfl
  | cons p rest ih =>
    rw [alookup] at h
    by_cases hk : p.1 = k
    · rw [if_pos hk] at h
      exact Option.noConfusion h
    · rw [if_neg hk] at h
      obtain ⟨pk, pv⟩ := p
      rw [ainsert, if_neg hk, ih h]
      rfl

theorem to_table_flat (m : Assoc) : ∀ t0 : Table,
    (∀ p ∈ m, '.' ∉ p.1) →
    (m.map Prod.fst).Nodup →
    (∀ p ∈ m, alookup t0 p.1 = none) →
    m.foldl toTableStep t0 = t0 ++ m := by
  induction m with
  | nil => intro t0 _ _ _; simp
  | cons p rest ih =>
    intro t0 hdot hnd habs
    rw [List.foldl_cons]
    have hsd : splitDots p.1 = [p.1] :=
      splitDots_dotfree _ (hdot p (List.mem_cons_self p rest))
    have hstep : toTableStep t0 p = t0 ++ [p] := by
      rw [toTableStep]
      simp [hsd, ainsert_absent t0 p.1 p.2 (habs p (List.mem_cons_self p rest))]
    rw [List.map_cons] at hnd
    have hnd' := List.nodup_cons.mp hnd
    have habs' : ∀ q ∈ rest, alookup (t0 ++ [p]) q.1 = none := by
      intro q hq
      rw [alookup_append, habs q (List.mem_cons_of_mem p hq)]
      have hne : ¬ p.1 = q.1 := by
        have hmem : q.1 ∈ rest.map Prod.fst := List.mem_map_of_mem Prod.fst hq
        intro he
        exact hnd'.1 (by rw [he]; exact hmem)
      simp [alookup, hne]
    rw [hstep]
    rw [ih (t0 ++ [p]) (fun q hq => hdot q (List.mem_cons_of_mem p hq)) hnd'.2 habs']
    simp

theorem merge_toml_flat (m : Assoc) : ∀ t0 : Assoc,
    (∀ p ∈ m, p.2.asTable = none) →
    (m.map Prod.fst).Nodup →
    (∀ p ∈ m, alookup t0 p.1 = none) →
    merge_toml t0 [] m = t0 ++ m := by
  induction m with
  | nil => intro t0 _ _ _; rw [merge_toml]; simp
  | cons p rest ih =>
    intro t0 hnt hnd habs
    obtain ⟨k, v⟩ := p
    rw [merge_toml]
    have hfk : fullKey [] k = k := by simp [fullKey]
    have hmv : mergeVal t0 (fullKey [] k) v = t0 := by
      rw [mergeVal.eq_def]
      cases v with
      | table inner =>
        have := hnt (k, .table inner) (List.mem_cons_self _ rest)
        simp [Value.asTable] at this
      | str s => rfl
      | int n => rfl
      | float s => rfl
      | bool b => rfl
      | arr a => rfl
    rw [hmv, hfk]
    have hins : insertIfAbsent t0 k v = t0 ++ [(k, v)] := by
      rw [insertIfAbsent, habs (k, v) (List.mem_cons_self _ rest)]
      rfl
    rw [hins]
    rw [List.map_cons] at hnd
    have hnd' := List.nodup_cons.mp hnd
    have habs' : ∀ q ∈ rest, alookup (t0 ++ [(k, v)]) q.1 = none := by
      intro q hq
      rw [alookup_append, habs q (List.mem_cons_of_mem _ hq)]
      have hne : ¬ k = q.1 := by
        have hmem : q.1 ∈ rest.map Prod.fst := List.mem_map_of_mem Prod.fst hq
        intro he
        exact hnd'.1 (by rw [he]; exact hmem)
      simp [alookup, hne]
    rw [ih (t0 ++ [(k, v)]) (fun q hq => hnt q (List.mem_cons_of_mem _ hq)) hnd'.2 habs']
    simp

/-- C4 (amended): for resolved mappings whose keys contain no dot and whose
values are not tables, unflattening with `to_table` and flattening back
with `merge_toml` over an empty mapping reproduces the original mapping
exactly; and when a flat key like `a.b` collides with a non-table value
already stored at the intermediate path `a`, the reverse operation silently
stops descending and drops the deeper key. -/
theorem flatten_unflatten_exact (m : Assoc)
    (hdot : ∀ p ∈ m, '.' ∉ p.1)
    (hnt : ∀ p ∈ m, p.2.asTable = none)
    (hnd : (m.map Prod.fst).Nodup) :
    merge_toml [] [] (to_table m) = m ∧
    to_table [(cs "a", Value.int 1), (cs "a.b", Value.int 2)] =
      [(cs "a", Value.int 1)] := by
  constructor
  · have h1 : to_table m = m := by
      rw [to_table]
      exact to_table_flat m [] hdot hnd (fun p _ => rfl)
    rw [h1]
    exact merge_toml_flat m [] hnt hnd (fun p _ => rfl)
  · rfl

/-- Witness for C4's amended theorem at a concrete mapping with a dot-free
key and a scalar value. -/
theorem flatten_unflatten_exact_witness :
    merge_toml [] [] (to_table [(cs "x", Value.int 3)]) = [(cs "x", Value.int 3)] ∧
    to_table [(cs "a", Value.int 1), (cs "a.b", Value.int 2)] =
      [(cs "a", Value.int 1)] :=
  flatten_unflatten_exact [(cs "x", Value.int 3)]
    (by intro p hp; rw [List.mem_singleton] at hp; rw [hp]; decide)
    (by intro p hp; rw [List.mem_singleton] at hp; rw [hp]; rfl)
    (by simp)

/-- C4 (counterexample): the round-trip law fails as claimed — the mapping
`{a.b: 1}` has no dotted-key collision, yet flattening its unflattened tree
also inserts the parent table under the key `a`, so the result is not equal
key-for-key to the original. -/
theorem flatten_unflatten_counterexample :
    ¬ (∀ k, alookup (merge_toml [] [] (to_table [(cs "a.b", Value.int 1)])) k =
        alookup [(cs "a.b", Value.int 1)] k) := by
  intro h
  have hc : merge_toml [] [] (to_table [(cs "a.b", Value.int 1)]) =
      [(cs "a.b", Value.int 1), (cs "a", Value.table [(cs "b", Value.int 1)])] := by
    rw [show to_table [(cs "a.b", Value.int 1)] =
        [(cs "a", Value.table [(cs "b", Value.int 1)])] from rfl]
    rw [merge_toml, merge_toml, mergeVal, merge_toml, merge_toml, mergeVal.eq_def]
    rfl
  have ha := h (cs "a")
  rw [hc] at ha
  rw [show alookup [(cs "a.b", Value.int 1),
      (cs "a", Value.table [(cs "b", Value.int 1)])] (cs "a") =
      some (Value.table [(cs "b", Value.int 1)]) from rfl] at ha
  rw [show alookup [(cs "a.b", Value.int 1)] (cs "a") = none from rfl] at ha
  exact Option.noConfusion ha

end StomlArgs
